import Mathlib

/-!
Verification model of the `just-extension` crate (`src/lib.rs`).

The crate's own code is embedded directly.  Its dependency `url::Url`
(the rust-url implementation of the WHATWG URL standard) is modelled by
`Url.parse` below, restricted to the behaviours the crate exercises:
scheme recognition, authority/host extraction, and path splitting.
WHATWG details with no bearing on the claims (percent-encoding, dot-segment
removal, IDNA host normalisation, backslash-as-slash for special schemes,
IPv6 host literals, tab/newline stripping) are omitted; where the model is
stricter it only rejects inputs, never accepts one with a different shape.
Rust strings are Lean `String`s; `str::starts_with` / `str::ends_with`
are the prefix/suffix tests on the character sequence, and URL paths are
kept as `List Char` so that `path_segments` (which in rust-url strips a
leading `/` and splits on `/`) is a direct list program.
-/

namespace JustExt

/-- Rust `str::starts_with`: the pattern is a prefix of the character
sequence of the string. -/
def rustStartsWith (s pat : String) : Bool :=
  pat.data.isPrefixOf s.data

/-- Rust `str::ends_with`: the pattern is a suffix of the character
sequence of the string. -/
def rustEndsWith (s pat : String) : Bool :=
  pat.data.isSuffixOf s.data

/-- `pub const JUST_PREFIX: &str = "just-";` -/
def JUST_PREFIX : String := "just-"

/-- `fn prepend_just_prefix(name: &str) -> String` (source name kept up to
the trailing word): returns `name` unchanged when it already starts with
`JUST_PREFIX`, otherwise prepends `JUST_PREFIX`. -/
def prepend_just (name : String) : String :=
  if rustStartsWith name JUST_PREFIX then name else JUST_PREFIX ++ name

/-! ## Model of `url::Url` -/

/-- The special schemes of the WHATWG URL standard. -/
def specialSchemes : List String := ["http", "https", "ws", "wss", "ftp", "file"]

/-- ASCII lower-casing of one character. -/
def asciiLower (c : Char) : Char :=
  if c.isUpper then Char.ofNat (c.toNat + 32) else c

/-- Valid scheme: one ASCII letter followed by letters, digits, `+`, `-`, `.`. -/
def isValidScheme : List Char → Bool
  | [] => false
  | c :: rest => c.isAlpha && rest.all fun d => d.isAlphanum || d = '+' || d = '-' || d = '.'

/-- Characters that may continue an authority component. -/
def notPathEnd (c : Char) : Bool :=
  !(c = '/' || c = '?' || c = '#')

/-- Characters that may continue a path component. -/
def notQueryFrag (c : Char) : Bool :=
  !(c = '?' || c = '#')

/-- Code points the model rejects inside a host. -/
def forbiddenHostChar (c : Char) : Bool :=
  c = ' ' || c = '#' || c = '/' || c = '?' || c = '@' || c = '<' || c = '>' ||
  c = '\\' || c = '^' || c = '|' || c = '\t' || c = '\n' || c = '\r'

/-- The characters after the last `@`, the whole list when there is none
(WHATWG: user information ends at the last `@` of the authority). -/
def afterLastAt (l : List Char) : List Char :=
  (l.reverse.takeWhile fun c => c ≠ '@').reverse

/-- Host of an authority component: drop user information, split off the
port at the first `:` (digits only), reject forbidden characters and
bracketed (IPv6) hosts; a special-scheme host must be non-empty and is
ASCII lower-cased, a non-special host is kept verbatim (opaque host). -/
def parseHost (special : Bool) (auth : List Char) : Option String :=
  let hostport := afterLastAt auth
  if hostport.any fun c => c = '[' || c = ']' then none
  else
    let host := hostport.takeWhile fun c => c ≠ ':'
    let port := (hostport.dropWhile fun c => c ≠ ':').drop 1
    if !port.all Char.isDigit then none
    else if host.any forbiddenHostChar then none
    else if special && host.isEmpty then none
    else some (String.mk (if special then host.map asciiLower else host))

/-- Everything after `scheme:`, turned into host and serialized path.
A special scheme skips all slashes and then reads an authority, and its
path is `/`-rooted (defaulting to `"/"`).  A non-special scheme reads an
authority only after a literal `//` (its path may then be empty, as in
`foo://host`); otherwise there is no host and the rest up to `?`/`#` is
the path, which for a cannot-be-a-base URL does not start with `/`. -/
def parseAfterScheme (special : Bool) (rest : List Char) : Option (Option String × List Char) :=
  if special then
    let rest1 := rest.dropWhile fun c => c = '/'
    let auth := rest1.takeWhile notPathEnd
    let remainder := rest1.dropWhile notPathEnd
    match parseHost true auth with
    | some host =>
        let p := remainder.takeWhile notQueryFrag
        some (some host, if p.isEmpty then ['/'] else p)
    | none => none
  else
    match rest with
    | '/' :: '/' :: rest1 =>
        let auth := rest1.takeWhile notPathEnd
        let remainder := rest1.dropWhile notPathEnd
        match parseHost false auth with
        | some host => some (some host, remainder.takeWhile notQueryFrag)
        | none => none
    | _ => some (none, rest.takeWhile notQueryFrag)

/-- Model of a parsed `url::Url`: scheme, optional host, serialized path. -/
structure Url where
  scheme : String
  host : Option String
  path : List Char
deriving DecidableEq, Repr

/-- Model of `url::Url::parse`: a valid scheme followed by `:` is
required (otherwise the parse fails, e.g. a relative URL), the scheme is
lower-cased, and the remainder is read by `parseAfterScheme`. -/
def Url.parse (s : String) : Option Url :=
  let cs := s.data
  let schemePart := cs.takeWhile fun c => c ≠ ':'
  if schemePart.length = cs.length then none
  else if isValidScheme schemePart then
    let scheme := String.mk (schemePart.map asciiLower)
    let rest := (cs.dropWhile fun c => c ≠ ':').drop 1
    match parseAfterScheme (specialSchemes.contains scheme) rest with
    | some (host, path) => some { scheme := scheme, host := host, path := path }
    | none => none
  else none

/-- `url.host_str()`. -/
def Url.host_str (u : Url) : Option String := u.host

/-- Splitting on `/`: `split('/')` of Rust, on character lists. -/
def splitSlash : List Char → List (List Char)
  | [] => [[]]
  | c :: rest =>
    if c = '/' then [] :: splitSlash rest
    else
      match splitSlash rest with
      | [] => [[c]]
      | g :: gs => (c :: g) :: gs

/-- `url.path_segments()`: strip a leading `/` from the serialized path
and split the remainder on `/`; `none` when the path does not start with
`/` (rust-url: `path.strip_prefix('/').map(|r| r.split('/'))`). -/
def Url.path_segments (u : Url) : Option (List (List Char)) :=
  match u.path with
  | '/' :: rest => some (splitSlash rest)
  | _ => none

/-! ## The crate's code -/

/-- The error cases of `get_repository_name`.  `urlParseError` is the
`url::ParseError` propagated by `?` (the spec's `InvalidUrl`);
`unsupportedProvider` is the message `Currently, only github.com is
supported for just components`; `missingRepositoryName` is `No repository
name in segments`; `invalidUrl` is the literal `Invalid URL` message of
the final else branch. -/
inductive ExtError where
  | urlParseError
  | unsupportedProvider
  | missingRepositoryName
  | invalidUrl
deriving DecidableEq, Repr

/-- `fn is_github_url(url: &Url) -> bool`. -/
def is_github_url (u : Url) : Bool :=
  u.host_str == some "github.com"

/-- `fn get_repository_name(url: &str) -> BoxedResult<String>`: parse the
URL (propagating the parse error), reject non-github hosts, then take
`segments.skip(1).take(1)` and its first element. -/
def get_repository_name (url : String) : Except ExtError String :=
  match Url.parse url with
  | none => .error .urlParseError
  | some u =>
    if !(is_github_url u) then .error .unsupportedProvider
    else
      match u.path_segments with
      | some segments =>
        match (segments.drop 1).take 1 with
        | name :: _ => .ok (String.mk name)
        | [] => .error .missingRepositoryName
      | none => .error .invalidUrl

deriving instance DecidableEq for Except

/-! ## The `Extension` operations

`Extension` borrows a `Folder` whose `bin_path` names the binary
directory.  Paths are modelled as lists of components (`PathBuf::join`
appends a component); the filesystem is passed explicitly: the set of
existing paths for `get_path_of`/`uninstall`, a directory tree for
`list`, and a small state plus success oracles for `install`.  The
platform constant `std::env::consts::EXE_SUFFIX` is a parameter. -/

/-- `Extension::assemble_path`: join `bin_path` with
`prepend_just_prefix(name)` followed by `EXE_SUFFIX`. -/
def Extension.assemble_path (exeSuffix : String) (bin_path : List String)
    (name : String) : List String :=
  bin_path ++ [prepend_just name ++ exeSuffix]

/-- `Extension::get_path_of`: the assembled path when it exists on the
filesystem (membership in the set `fs` of existing paths), else `None`. -/
def Extension.get_path_of (exeSuffix : String) (fs : List (List String))
    (bin_path : List String) (name : String) : Option (List String) :=
  let p := Extension.assemble_path exeSuffix bin_path name
  if p ∈ fs then some p else none

/-- `Extension::is_installed`. -/
def Extension.is_installed (exeSuffix : String) (fs : List (List String))
    (bin_path : List String) (name : String) : Bool :=
  (Extension.get_path_of exeSuffix fs bin_path name).isSome

/-- `Extension::uninstall`: when `get_path_of` finds a path, `remove_file`
it (`removeOk` says whether the filesystem call succeeds; on success the
path is erased), propagating its error; otherwise `Ok(())`, silently. -/
def Extension.uninstall (removeOk : Bool) (exeSuffix : String)
    (fs : List (List String)) (bin_path : List String) (name : String) :
    Except Unit Unit × List (List String) :=
  match Extension.get_path_of exeSuffix fs bin_path name with
  | some p => if removeOk then (.ok (), fs.erase p) else (.error (), fs)
  | none => (.ok (), fs)

/-- A node of the binary directory tree walked by `WalkDir`: a file, a
directory with children, or an entry whose read failed (`dir.ok()` is
`None`, filtered out). -/
inductive FsEntry where
  | file (name : String)
  | dir (name : String) (children : List FsEntry)
  | err
deriving Repr

mutual
/-- The file names yielded by `WalkDir` in depth-first order: the entry
itself (root included, directories included), then its descendants;
errored entries are skipped. -/
def walkNames : FsEntry → List String
  | .file n => [n]
  | .dir n cs => n :: walkNamesList cs
  | .err => []

/-- `walkNames` over a list of siblings. -/
def walkNamesList : List FsEntry → List String
  | [] => []
  | e :: es => walkNames e ++ walkNamesList es
end

/-- The `file_name()` of an entry, `none` for an errored entry. -/
def entryName : FsEntry → Option String
  | .file n => some n
  | .dir n _ => some n
  | .err => none

/-- Occurrence of an entry in a tree, at any nesting depth (the tree
itself included, as `WalkDir` also yields its root). -/
inductive EntryIn : FsEntry → FsEntry → Prop where
  | refl (e : FsEntry) : EntryIn e e
  | child {e c : FsEntry} {n : String} {cs : List FsEntry} :
      c ∈ cs → EntryIn e c → EntryIn e (.dir n cs)

/-- `Extension::list`: walk the binary directory, keep the file names
that end with `EXE_SUFFIX` and start with `JUST_PREFIX`. -/
def Extension.list (exeSuffix : String) (root : FsEntry) : List String :=
  (walkNames root).filter fun filename =>
    rustEndsWith filename exeSuffix && rustStartsWith filename JUST_PREFIX

/-- Errors of `Extension::install`, one per pipeline stage. -/
inductive InstallError where
  | urlError (e : ExtError)
  | removeStaleFailed
  | cloneFailed
  | buildFailed
  | copyFailed
  | cleanupFailed
deriving DecidableEq, Repr

/-- Success oracles for the external effects of `install`: removal of a
stale working directory, `git clone`, `cargo build`, the `copy` into the
binary directory, and the final `remove_dir_all` cleanup. -/
structure InstallWorld where
  removeStaleOk : Bool
  cloneOk : Bool
  buildOk : Bool
  copyOk : Bool
  cleanupOk : Bool
deriving DecidableEq, Repr

/-- The two locations `install` mutates: the working directory
`<current_dir>/<repo>` and the destination binary at `assemble_path`.
`remove_dir_all(&repo_path)` touches only the working directory, and
`copy(&target_path, &bin_path)` only the destination binary. -/
structure FsState where
  workDirExists : Bool
  binInstalled : Bool
deriving DecidableEq, Repr

/-- `Extension::install`: resolve the repository name (propagating its
error), remove a stale working directory if present, clone, build, copy
the built binary into place, then remove the working directory; each
failure aborts the pipeline and is returned, together with the
filesystem state at that point. -/
def Extension.install (w : InstallWorld) (s : FsState) (url : String) :
    Except InstallError Unit × FsState :=
  match get_repository_name url with
  | .error e => (.error (.urlError e), s)
  | .ok _repo =>
    if s.workDirExists && !w.removeStaleOk then (.error .removeStaleFailed, s)
    else
      let s2 : FsState := { s with workDirExists := false }
      if !w.cloneOk then (.error .cloneFailed, s2)
      else
        let s3 : FsState := { s2 with workDirExists := true }
        if !w.buildOk then (.error .buildFailed, s3)
        else if !w.copyOk then (.error .copyFailed, s3)
        else
          let s4 : FsState := { s3 with binInstalled := true }
          if !w.cleanupOk then (.error .cleanupFailed, s4)
          else (.ok (), { s4 with workDirExists := false })

/-! ## Helper lemmas -/

/-- A string starts with any string prepended to it. -/
theorem rustStartsWith_append (p s : String) : rustStartsWith (p ++ s) p = true := by
  simp [rustStartsWith, List.isPrefixOf_iff_prefix]

/-- Starting with a pattern is preserved by appending on the right. -/
theorem rustStartsWith_append_left {s p : String} (h : rustStartsWith s p = true)
    (t : String) : rustStartsWith (s ++ t) p = true := by
  simp only [rustStartsWith, List.isPrefixOf_iff_prefix, String.data_append] at h ⊢
  exact h.trans (List.prefix_append _ _)

/-- A string ends with any string appended to it. -/
theorem rustEndsWith_append (s p : String) : rustEndsWith (s ++ p) p = true := by
  simp [rustEndsWith, List.isSuffixOf_iff_suffix]

/-- The canonical name always starts with the prefix constant. -/
theorem prepend_just_starts (n : String) :
    rustStartsWith (prepend_just n) JUST_PREFIX = true := by
  unfold prepend_just
  by_cases h : rustStartsWith n JUST_PREFIX = true
  · rw [if_pos h]; exact h
  · simp only [Bool.not_eq_true] at h
    simp [h, rustStartsWith_append]

/-- The head of a `dropWhile` residue falsifies the predicate. -/
theorem head_dropWhile_false {α : Type} (p : α → Bool) :
    ∀ (l : List α) {c : α} {t : List α}, l.dropWhile p = c :: t → p c = false := by
  intro l
  induction l with
  | nil => intro c t h; simp [List.dropWhile] at h
  | cons a l ih =>
    intro c t h
    rw [List.dropWhile_cons] at h
    split at h
    · exact ih h
    · rename_i hpa
      cases h
      simpa using hpa

/-- The head of a non-empty `takeWhile` satisfies the predicate and heads
the original list. -/
theorem head_takeWhile_true {α : Type} (q : α → Bool) :
    ∀ (l : List α) {c : α} {t : List α}, l.takeWhile q = c :: t →
      q c = true ∧ ∃ t2, l = c :: t2 := by
  intro l
  cases l with
  | nil => intro c t h; simp at h
  | cons a l =>
    intro c t h
    rw [List.takeWhile_cons] at h
    split at h
    · cases h
      exact ⟨by assumption, l, rfl⟩
    · cases h

/-- `get_repository_name` on a URL that parses with a `github.com` host
and path segments is determined by `segments.skip(1).take(1)`. -/
theorem get_repository_name_of_segments {s : String} {u : Url}
    {segs : List (List Char)} (hp : Url.parse s = some u)
    (hg : is_github_url u = true) (hs : u.path_segments = some segs) :
    get_repository_name s =
      match (segs.drop 1).take 1 with
      | name :: _ => .ok (String.mk name)
      | [] => .error .missingRepositoryName := by
  simp [get_repository_name, hp, hg, hs]

/-! ## Claims -/

/-- C5: applying the prefix canonicalization `prepend_just_prefix` twice
yields the same string as applying it once. -/
theorem c5_prepend_idempotent (n : String) :
    prepend_just (prepend_just n) = prepend_just n := by
  conv_lhs => rw [prepend_just]
  simp [prepend_just_starts]

/-- C3: on every input string that the URL parser rejects,
`get_repository_name` returns the propagated parse error (the spec's
`InvalidUrl`); the provider check never sees such an input, so the result
is never `unsupportedProvider`. -/
theorem c3_parse_error_first (s : String) (h : Url.parse s = none) :
    get_repository_name s = .error .urlParseError := by
  simp [get_repository_name, h]

/-- C3 witness: `"not a url"` does not parse, and `get_repository_name`
reports the parse error on it. -/
theorem c3_witness :
    Url.parse "not a url" = none ∧
    get_repository_name "not a url" = .error .urlParseError :=
  ⟨by decide, c3_parse_error_first "not a url" (by decide)⟩

/-- C6: a well-formed github.com URL with owner and repository segments
yields the second path segment, the repository name. -/
theorem c6_owner_repo :
    get_repository_name "https://github.com/owner/repo" = .ok "repo" := by
  decide

/-- C7: the binary path is exactly `bin_path` joined with the single file
name component `just-` + n (or n itself when already prefixed) followed
by the platform executable suffix; that file name starts with `just-`
and ends with the suffix. -/
theorem c7_assemble_path_pattern (exeSuffix : String) (bin_path : List String)
    (n : String) :
    Extension.assemble_path exeSuffix bin_path n =
      bin_path ++
        [(if rustStartsWith n JUST_PREFIX = true then n else JUST_PREFIX ++ n) ++
          exeSuffix] ∧
    rustStartsWith (prepend_just n ++ exeSuffix) JUST_PREFIX = true ∧
    rustEndsWith (prepend_just n ++ exeSuffix) exeSuffix = true :=
  ⟨by simp [Extension.assemble_path, prepend_just],
   rustStartsWith_append_left (prepend_just_starts n) exeSuffix,
   rustEndsWith_append (prepend_just n) exeSuffix⟩

/-- C8: when no binary exists at the resolved path, `uninstall` succeeds
and leaves the filesystem unchanged, whatever the removal oracle says. -/
theorem c8_uninstall_noop (removeOk : Bool) (exeSuffix : String)
    (fs : List (List String)) (bin_path : List String) (name : String)
    (h : Extension.get_path_of exeSuffix fs bin_path name = none) :
    Extension.uninstall removeOk exeSuffix fs bin_path name = (.ok (), fs) := by
  simp [Extension.uninstall, h]

/-- C8 witness: an empty filesystem has no binary for `foo`, and
uninstalling `foo` succeeds and changes nothing. -/
theorem c8_witness :
    Extension.get_path_of "" [] ["bin"] "foo" = none ∧
    Extension.uninstall false "" [] ["bin"] "foo" = (.ok (), []) :=
  ⟨by decide, c8_uninstall_noop false "" [] ["bin"] "foo" (by decide)⟩

/-- C4: when the repository name resolves, every step up to and including
the copy succeeds, and the final working-directory removal fails,
`install` returns the cleanup error while the destination binary is
installed and remains in place (and the working directory remains). -/
theorem c4_cleanup_error_after_copy (w : InstallWorld) (s : FsState)
    (url repo : String) (hrepo : get_repository_name url = .ok repo)
    (hstale : s.workDirExists = true → w.removeStaleOk = true)
    (hclone : w.cloneOk = true) (hbuild : w.buildOk = true)
    (hcopy : w.copyOk = true) (hclean : w.cleanupOk = false) :
    Extension.install w s url =
      (.error .cleanupFailed, ⟨true, true⟩) := by
  have hst : (s.workDirExists && !w.removeStaleOk) = false := by
    cases hw : s.workDirExists with
    | false => simp
    | true => simp [hstale hw]
  simp [Extension.install, hrepo, hst, hclone, hbuild, hcopy, hclean]

/-- C4 witness: with all oracles succeeding except the final cleanup,
installing from a valid github URL returns the cleanup error and the
binary is in place. -/
theorem c4_witness :
    get_repository_name "https://github.com/owner/repo" = .ok "repo" ∧
    Extension.install ⟨true, true, true, true, false⟩ ⟨false, false⟩
        "https://github.com/owner/repo" =
      (.error .cleanupFailed, ⟨true, true⟩) :=
  ⟨by decide,
   c4_cleanup_error_after_copy ⟨true, true, true, true, false⟩ ⟨false, false⟩
     "https://github.com/owner/repo" "repo" (by decide)
     (fun h => absurd h (by decide)) rfl rfl rfl rfl⟩

/-- C1 counterexample: a github.com URL with a trailing slash after the
owner segment makes `get_repository_name` return `Ok` with the empty
string, so an `Ok` result is not always non-empty. -/
theorem c1_counterexample :
    get_repository_name "https://github.com/owner/" = .ok "" := by
  decide

/-- C1 (amended): an `Ok` result of `get_repository_name` is exactly the
second path segment, which exists but may be empty (trailing slash);
when the path has no second segment at all the result is the
`missingRepositoryName` error, never an empty-string `Ok`. -/
theorem c1_second_segment_or_missing {s : String} {u : Url}
    {segs : List (List Char)} (hp : Url.parse s = some u)
    (hg : is_github_url u = true) (hs : u.path_segments = some segs) :
    (segs.length ≤ 1 →
      get_repository_name s = .error .missingRepositoryName) ∧
    (∀ h2 : 1 < segs.length,
      get_repository_name s = .ok (String.mk (segs.get ⟨1, h2⟩))) := by
  have key := get_repository_name_of_segments hp hg hs
  cases segs with
  | nil => exact ⟨fun _ => key, fun h2 => by simp at h2⟩
  | cons a s1 =>
    cases s1 with
    | nil => exact ⟨fun _ => key, fun h2 => by simp at h2⟩
    | cons b t =>
      refine ⟨fun hle => by simp at hle, fun h2 => ?_⟩
      simpa using key

/-- C1 witness: `https://github.com/owner` parses with the single
segment `owner`, and `get_repository_name` reports the missing
repository name on it. -/
theorem c1_witness :
    Url.parse "https://github.com/owner" =
      some ⟨"https", some "github.com", ['/', 'o', 'w', 'n', 'e', 'r']⟩ ∧
    get_repository_name "https://github.com/owner" =
      .error .missingRepositoryName :=
  ⟨by decide,
   (@c1_second_segment_or_missing "https://github.com/owner"
       ⟨"https", some "github.com", ['/', 'o', 'w', 'n', 'e', 'r']⟩
       [['o', 'w', 'n', 'e', 'r']] (by decide) (by decide) (by decide)).1
     (by decide)⟩

/-- C10: a github.com URL with more than two path segments succeeds and
returns the second segment; the extra trailing segments are ignored. -/
theorem c10_extra_segments_ignored {s : String} {u : Url}
    {segs : List (List Char)} (hp : Url.parse s = some u)
    (hg : is_github_url u = true) (hs : u.path_segments = some segs)
    (hlen : 2 < segs.length) :
    get_repository_name s = .ok (String.mk (segs.get ⟨1, by omega⟩)) := by
  have key := get_repository_name_of_segments hp hg hs
  cases segs with
  | nil => simp at hlen
  | cons a s1 =>
    cases s1 with
    | nil => simp at hlen
    | cons b t => simpa using key

/-- C10 witness: `https://github.com/owner/repo/tree/main` has four path
segments and yields the second, `repo`. -/
theorem c10_witness :
    get_repository_name "https://github.com/owner/repo/tree/main" =
      .ok "repo" := by
  have h := @c10_extra_segments_ignored
    "https://github.com/owner/repo/tree/main"
    ⟨"https", some "github.com",
      ['/', 'o', 'w', 'n', 'e', 'r', '/', 'r', 'e', 'p', 'o', '/',
       't', 'r', 'e', 'e', '/', 'm', 'a', 'i', 'n']⟩
    [['o', 'w', 'n', 'e', 'r'], ['r', 'e', 'p', 'o'],
     ['t', 'r', 'e', 'e'], ['m', 'a', 'i', 'n']]
    (by decide) (by decide) (by decide) (by decide)
  simpa using h

mutual
/-- The names yielded by the walk are exactly the names of the entries
occurring in the tree at any depth. -/
theorem mem_walkNames_iff (root : FsEntry) (name : String) :
    name ∈ walkNames root ↔ ∃ e, EntryIn e root ∧ entryName e = some name := by
  cases root with
  | file n =>
    simp only [walkNames, List.mem_singleton]
    constructor
    · rintro rfl
      exact ⟨_, .refl _, rfl⟩
    · rintro ⟨e, he, hn⟩
      cases he
      cases hn
      rfl
  | dir n cs =>
    simp only [walkNames, List.mem_cons]
    constructor
    · rintro (rfl | hmem)
      · exact ⟨_, .refl _, rfl⟩
      · obtain ⟨c, hc, e, he, hn⟩ := (mem_walkNamesList_iff cs name).mp hmem
        exact ⟨e, .child hc he, hn⟩
    · rintro ⟨e, he, hn⟩
      cases he with
      | refl => cases hn; exact Or.inl rfl
      | child hc he2 =>
        exact Or.inr ((mem_walkNamesList_iff cs name).mpr ⟨_, hc, e, he2, hn⟩)
  | err =>
    simp only [walkNames, List.not_mem_nil, false_iff]
    rintro ⟨e, he, hn⟩
    cases he
    cases hn

/-- The walk of a sibling list yields exactly the names of entries
occurring in one of the siblings. -/
theorem mem_walkNamesList_iff (cs : List FsEntry) (name : String) :
    name ∈ walkNamesList cs ↔
      ∃ c, c ∈ cs ∧ ∃ e, EntryIn e c ∧ entryName e = some name := by
  cases cs with
  | nil => simp [walkNamesList]
  | cons c cs2 =>
    simp only [walkNamesList, List.mem_append, List.mem_cons]
    constructor
    · rintro (hmem | hmem)
      · obtain ⟨e, he, hn⟩ := (mem_walkNames_iff c name).mp hmem
        exact ⟨c, Or.inl rfl, e, he, hn⟩
      · obtain ⟨c2, hc2, e, he, hn⟩ := (mem_walkNamesList_iff cs2 name).mp hmem
        exact ⟨c2, Or.inr hc2, e, he, hn⟩
    · rintro ⟨c2, (rfl | hc2), e, he, hn⟩
      · exact Or.inl ((mem_walkNames_iff c2 name).mpr ⟨e, he, hn⟩)
      · exact Or.inr ((mem_walkNamesList_iff cs2 name).mpr ⟨c2, hc2, e, he, hn⟩)
end

/-- C2 counterexample: on a platform with an empty executable suffix, a
binary directory holding the files `just-foo`, `bar` and `just-baz.tmp`
lists both `just-foo` and `just-baz.tmp` (the `.tmp` name starts with
`just-` and every name ends with the empty suffix), not `just-foo`
alone. -/
theorem c2_counterexample :
    Extension.list ""
        (.dir "bin" [.file "just-foo", .file "bar", .file "just-baz.tmp"]) =
      ["just-foo", "just-baz.tmp"] ∧
    Extension.list ""
        (.dir "bin" [.file "just-foo", .file "bar", .file "just-baz.tmp"]) ≠
      ["just-foo"] :=
  ⟨by decide, by decide⟩

/-- C2 (amended): `list()` returns exactly the names of the entries of
the binary directory tree — files and directories alike, the root
included, errored entries skipped — whose names both start with `just-`
and end with the platform executable suffix; nothing is filtered by
entry kind, so a matching directory name is also returned, and with an
empty suffix a name such as `just-baz.tmp` matches. -/
theorem c2_list_exactly_matching_names (exeSuffix : String) (root : FsEntry)
    (name : String) :
    name ∈ Extension.list exeSuffix root ↔
      (∃ e, EntryIn e root ∧ entryName e = some name) ∧
      rustEndsWith name exeSuffix = true ∧
      rustStartsWith name JUST_PREFIX = true := by
  rw [Extension.list, List.mem_filter, mem_walkNames_iff, Bool.and_eq_true]

/-- Continuing a path after an authority yields `/` or nothing: the first
character surviving `dropWhile notPathEnd` and kept by
`takeWhile notQueryFrag` can only be a slash. -/
theorem takeWhile_dropWhile_slash (X : List Char) {c : Char} {t : List Char}
    (h : (X.dropWhile notPathEnd).takeWhile notQueryFrag = c :: t) :
    c = '/' := by
  obtain ⟨hq, t2, hl⟩ := head_takeWhile_true notQueryFrag _ h
  have hnp := head_dropWhile_false notPathEnd X hl
  simp [notPathEnd] at hnp
  simp [notQueryFrag] at hq
  by_cases h1 : c = '/'
  · exact h1
  · exact absurd (hnp h1 hq.1) hq.2

/-- The path built for a special scheme starts with a slash. -/
theorem special_branch_path (X : List Char) :
    ∃ t, (if ((X.dropWhile notPathEnd).takeWhile notQueryFrag).isEmpty
          then ['/']
          else (X.dropWhile notPathEnd).takeWhile notQueryFrag) = '/' :: t := by
  cases hT : (X.dropWhile notPathEnd).takeWhile notQueryFrag with
  | nil => exact ⟨[], by simp [hT]⟩
  | cons c t =>
    have hc := takeWhile_dropWhile_slash X hT
    subst hc
    exact ⟨t, by simp [hT]⟩

/-- A successful special-scheme parse produces a slash-rooted path. -/
theorem special_path_slash {rest : List Char} {host : Option String}
    {path : List Char} (h : parseAfterScheme true rest = some (host, path)) :
    ∃ t, path = '/' :: t := by
  unfold parseAfterScheme at h
  rw [if_pos rfl] at h
  simp only [] at h
  split at h
  · rename_i host2 heq
    obtain ⟨t, ht⟩ := special_branch_path (rest.dropWhile fun c => c = '/')
    rw [ht] at h
    simp only [Option.some.injEq, Prod.mk.injEq] at h
    exact ⟨t, h.2.symm⟩
  · cases h

/-- Every successfully parsed URL whose scheme is special has a
slash-rooted serialized path. -/
theorem parse_special_scheme_path {s : String} {u : Url}
    (hp : Url.parse s = some u)
    (hs : specialSchemes.contains u.scheme = true) :
    ∃ t, u.path = '/' :: t := by
  unfold Url.parse at hp
  simp only [] at hp
  split at hp
  · cases hp
  · split at hp
    · split at hp
      · rename_i host path heq
        simp only [Option.some.injEq] at hp
        subst hp
        dsimp only at hs
        rw [hs] at heq
        exact special_path_slash heq
      · cases hp
    · cases hp

/-- C9 counterexample: the `Invalid URL` branch is reachable.  The
non-special-scheme URL `foo://github.com` parses with host `github.com`
and an empty serialized path, so the provider check passes while
`path_segments()` is `None`, and `get_repository_name` returns the
`Invalid URL` error. -/
theorem c9_counterexample :
    Url.parse "foo://github.com" = some ⟨"foo", some "github.com", []⟩ ∧
    get_repository_name "foo://github.com" = .error .invalidUrl :=
  ⟨by decide, by decide⟩

/-- C9 (amended): the `Invalid URL` branch is unreachable for URLs of a
special scheme (`https` and the other WHATWG special schemes): such a
URL always has a slash-rooted path, hence `path_segments()` is `Some`,
so when its host is `github.com` the function never returns that
error. -/
theorem c9_special_never_invalid_url {s : String} {u : Url}
    (hp : Url.parse s = some u)
    (hs : specialSchemes.contains u.scheme = true)
    (hg : is_github_url u = true) :
    get_repository_name s ≠ .error .invalidUrl := by
  obtain ⟨t, hpath⟩ := parse_special_scheme_path hp hs
  have hseg : u.path_segments = some (splitSlash t) := by
    simp [Url.path_segments, hpath]
  have key := get_repository_name_of_segments hp hg hseg
  rw [key]
  cases hdt : ((splitSlash t).drop 1).take 1 with
  | nil => simp
  | cons a l => simp

/-- C9 witness: a special-scheme github URL, on which the result is not
the `Invalid URL` error. -/
theorem c9_witness :
    Url.parse "https://github.com/o/r" =
      some ⟨"https", some "github.com", ['/', 'o', '/', 'r']⟩ ∧
    get_repository_name "https://github.com/o/r" ≠ .error .invalidUrl :=
  ⟨by decide,
   @c9_special_never_invalid_url "https://github.com/o/r"
     ⟨"https", some "github.com", ['/', 'o', '/', 'r']⟩
     (by decide) (by decide) (by decide)⟩

end JustExt
